import Mathlib

/-!
Verification of `icatapi/montage.py` (iCAT-workflow).

The module is a thin orchestration layer over the external `render-ws`
service.  We embed it shallowly: every remote endpoint consumed by the code
(`get_z_values_for_stack`, `tilePairClient`, `get_section_z_value`,
`get_matches_within_group`, `get_match_groupIds`) is a field of a
`RenderEnv` record of oracle functions, pandas DataFrames become lists of
records, and the numpy / pandas operations that can raise are embedded as
`Except String` computations carrying the library error messages.

The point-match dispatcher (`generate_point_matches`) mutates Python
objects (`SiftPointMatchOptions` instances) through attribute assignment,
so for it we use a small object store (`Heap`): object references are
indices into a list of cells, cloning appends a cell, and attribute
assignment is `List.set` at a reference.  The local variable
`sift_options`, which the Python code rebinds to each fresh clone, is
threaded through the fold as a reference `cur`.
-/

set_option autoImplicit false

namespace ICat

/-! ## Data model -/

/-- A flattened entry of the nested-JSON `neighborPairs` list returned by
`tilePairClient`; `pd.json_normalize` turns `p.id`, `q.id`,
`p.relativePosition` into flat columns. -/
structure NeighborPair where
  pId : String
  qId : String
  pRelativePosition : String
  deriving DecidableEq, Inhabited

/-- The JSON object returned by `tilePairClient` (only the
`neighborPairs` key is consumed by the code). -/
structure TilePairJson where
  neighborPairs : List NeighborPair
  deriving DecidableEq, Inhabited

/-- One row of the tile-pair DataFrame `df_pairs` built by
`get_tile_pairs_4_montage` and consumed by `generate_point_matches`:
columns `p.id`, `q.id`, `p.relativePosition`, `z`, `stack`. -/
structure TilePairRow where
  pId : String
  qId : String
  pRelativePosition : String
  z : Int
  stack : String
  deriving DecidableEq, Inhabited

/-- One entry of the JSON list returned by `get_matches_within_group`
(after `pd.json_normalize`), restricted to the columns the code touches. -/
structure MatchJson where
  pGroupId : String
  pId : String
  qGroupId : String
  qId : String
  matchCount : Nat
  deriving DecidableEq, Inhabited

/-- One row of the DataFrame returned by `get_matches_within_section`:
the normalized match record, `matchCount` renamed to `N`, plus the
resolved `z` value. -/
structure SectionMatchRow where
  pGroupId : String
  pId : String
  qGroupId : String
  qId : String
  N : Nat
  z : Int
  deriving DecidableEq, Inhabited

/-- One row of the DataFrame returned by `get_matches_within_stack`:
the section row plus the `stack` column and the parsed `pc`, `pr`,
`qc`, `qr` columns. -/
structure StackMatchRow where
  stack : String
  z : Int
  pGroupId : String
  pId : String
  pc : Nat
  pr : Nat
  qGroupId : String
  qId : String
  qc : Nat
  qr : Nat
  N : Nat
  deriving DecidableEq, Inhabited

/-- Oracle model of the remote `render-ws` endpoints consumed by the
module (all external collaborators, treated as black boxes). -/
structure RenderEnv where
  /-- `get_z_values_for_stack(stack=..., render=...)`. -/
  z_values_for_stack : String → List Int
  /-- `tilePairClient(stack=..., minz=..., maxz=..., render=...)`. -/
  tilePairClientJson : String → Int → Int → TilePairJson
  /-- `get_section_z_value(stack=..., sectionId=..., render=...)`. -/
  section_z_value : String → String → Int
  /-- `get_matches_within_group(matchCollection=..., groupId=..., render=...)`. -/
  matches_within_group : String → String → List MatchJson
  /-- `get_match_groupIds(matchCollection=..., render=...)`. -/
  match_groupIds : String → List String

/-! ## Tile-pair collector (`get_tile_pairs_4_montage`, lines 14-95) -/

/-- The arguments of one `tilePairClient` remote call issued by
`get_tile_pairs_4_montage`. -/
structure TPCall where
  stack : String
  minz : Int
  maxz : Int
  deriving DecidableEq, Inhabited

/-- `get_tile_pairs_4_montage`: iterate the z values of the stack; for
each z call `tilePairClient` with `minz = maxz = z`, normalize
`neighborPairs` into rows, set the `z` column, and concatenate onto the
accumulated DataFrame.  After the loop `df_pairs['stack'] = stack` adds
the stack column and `reset_index(drop=True)` renumbers rows 0..n-1
(implicit in the list model).  The first component instruments the
remote calls issued, in order. -/
def get_tile_pairs_4_montage (stack : String) (render : RenderEnv) :
    List TPCall × List TilePairRow :=
  let z_values := render.z_values_for_stack stack
  let looped := z_values.foldl
    (fun (acc : List TPCall × List (NeighborPair × Int)) z =>
      let tile_pairs_json := render.tilePairClientJson stack z z
      let df := tile_pairs_json.neighborPairs.map (fun p => (p, z))
      (acc.1 ++ [⟨stack, z, z⟩], acc.2 ++ df))
    ([], [])
  (looped.1,
   looped.2.map (fun pz =>
     { pId := pz.1.pId, qId := pz.1.qId,
       pRelativePosition := pz.1.pRelativePosition,
       z := pz.2, stack := stack }))

/-! ## Row/column extraction (`re.findall` + `np.stack` + column assignment)

Lines 281-284:
`df[['pc','pr']] = np.stack(df['pId'].apply(lambda x: [int(i) for i in re.findall(r'\d+', x)[-2:]]))`
and the same for `qId` into `['qc','qr']`. -/

/-- Scanner for `digitRuns`: `acc` holds the digits of the current run,
most recent first. -/
def digitRunsAux : List Char → List Char → List (List Char)
  | [], acc => if acc.isEmpty then [] else [acc.reverse]
  | c :: cs, acc =>
    if c.isDigit then digitRunsAux cs (c :: acc)
    else if acc.isEmpty then digitRunsAux cs []
    else acc.reverse :: digitRunsAux cs []

/-- `re.findall(r'\d+', s)` on the character list of `s`: the maximal
runs of decimal digits, in order.  (Tile ids are ASCII; `Char.isDigit`
matches the `0-9` digits `\d` matches there.) -/
def digitRuns (l : List Char) : List (List Char) :=
  digitRunsAux l []

/-- Python `int(...)` on a run of decimal digits. -/
def runToNat (run : List Char) : Nat :=
  run.foldl (fun n c => 10 * n + (c.toNat - 48)) 0

/-- `[int(i) for i in re.findall(r'\d+', x)[-2:]]`: the last (up to) two
digit runs of `x`, as numbers.  Python `l[-2:]` keeps the last
`min 2 (length l)` elements. -/
def lastTwoRuns (x : String) : List Nat :=
  let runs := (digitRuns x.toList).map runToNat
  runs.drop (runs.length - 2)

/-- `np.stack(arrays)`: fails on an empty sequence and on ragged input,
otherwise returns the rows unchanged (the 2-D array, as a row list). -/
def npStack (arrays : List (List Nat)) : Except String (List (List Nat)) :=
  match arrays with
  | [] => Except.error "need at least one array to stack"
  | a :: rest =>
    if rest.all (fun b => b.length == a.length) then Except.ok (a :: rest)
    else Except.error "all input arrays must have the same shape"

/-- `df[['pc','pr']] = arr`: pandas accepts the assignment only when the
stacked array's rows have width 2 (one value per target column); on a
width mismatch it raises.  (When this runs, `npStack` has already
enforced that all rows share one width.) -/
def assignTwoCols : List (List Nat) → Except String (List (Nat × Nat))
  | [] => Except.ok []
  | row :: rest =>
    match row with
    | [a, b] => (assignTwoCols rest).map (fun l => (a, b) :: l)
    | _ => Except.error "Columns must be same length as key"

/-- One `df[['c1','c2']] = np.stack(col.apply(...))` statement:
stack the per-row parse results, then assign into two columns. -/
def stackAssignRC (arrays : List (List Nat)) : Except String (List (Nat × Nat)) :=
  (npStack arrays).bind assignTwoCols

/-! ## Section and stack match fetchers (lines 211-285) -/

/-- `get_matches_within_section`: resolve the z value of the section,
fetch the matches within the group, normalize to rows, attach `z`,
and rename `matchCount` to `N`. -/
def get_matches_within_section (stack sectionId match_collection : String)
    (render : RenderEnv) : List SectionMatchRow :=
  let z := render.section_z_value stack sectionId
  (render.matches_within_group match_collection sectionId).map (fun m =>
    { pGroupId := m.pGroupId, pId := m.pId,
      qGroupId := m.qGroupId, qId := m.qId,
      N := m.matchCount, z := z })

/-- The concatenation loop of `get_matches_within_stack` (lines 259-276):
start from the empty DataFrame and `pd.concat` the per-section tables in
section-id order. -/
def stackMatchBase (stack match_collection : String) (render : RenderEnv) :
    List SectionMatchRow :=
  (render.match_groupIds match_collection).foldl
    (fun acc sectionId =>
      acc ++ get_matches_within_section stack sectionId match_collection render)
    []

/-- Assemble one output row of `get_matches_within_stack` from the
section row, the `stack` column value, and the parsed `(pc, pr)` and
`(qc, qr)` pairs. -/
def mkStackRow (stack : String) (s : SectionMatchRow)
    (p q : Nat × Nat) : StackMatchRow :=
  { stack := stack, z := s.z,
    pGroupId := s.pGroupId, pId := s.pId, pc := p.1, pr := p.2,
    qGroupId := s.qGroupId, qId := s.qId, qc := q.1, qr := q.2,
    N := s.N }

/-- Three-list zip used to lay the parsed column pairs alongside the rows. -/
def zip3With {α β γ δ : Type} (f : α → β → γ → δ) :
    List α → List β → List γ → List δ
  | a :: as_, b :: bs, c :: cs => f a b c :: zip3With f as_ bs cs
  | _, _, _ => []

/-- `get_matches_within_stack`: concatenate the per-section match tables,
set the `stack` column, then derive `pc`,`pr` from `pId` and `qc`,`qr`
from `qId` by stacking the per-row last-two-digit-run parses and
assigning them into two columns (the p-side statement runs first). -/
def get_matches_within_stack (stack match_collection : String)
    (render : RenderEnv) : Except String (List StackMatchRow) := do
  let df_matches := stackMatchBase stack match_collection render
  let pRC ← stackAssignRC (df_matches.map (fun r => lastTwoRuns r.pId))
  let qRC ← stackAssignRC (df_matches.map (fun r => lastTwoRuns r.qId))
  Except.ok (zip3With (mkStackRow stack) df_matches pRC qRC)

/-- Projection of an output row of `get_matches_within_stack` back onto
the columns it inherited from the per-section tables. -/
def stripStackRow (x : StackMatchRow) : SectionMatchRow :=
  { pGroupId := x.pGroupId, pId := x.pId,
    qGroupId := x.qGroupId, qId := x.qId, N := x.N, z := x.z }

/-! ## Point-match dispatcher (`run_point_match_client` and
`generate_point_matches`, lines 98-208)

`SiftPointMatchOptions` objects are mutated through attribute assignment,
so the dispatcher is embedded against an object store: a `Heap α` of
option cells (`α` stands for the bag of all fields other than
`firstCanvasPosition`, which the dispatcher never touches), references
being indices.  `SiftPointMatchOptions(**sift_options.__dict__)` appends
a copy of the referenced cell; `sift_options.firstCanvasPosition = ...`
is `List.set` at the fresh reference; the Python local `sift_options`,
rebound to each clone, is the threaded reference `cur`.

`pool.map` hands the batch to `N_cores` worker processes and blocks until
all complete; the order in which the workers perform the remote calls is
not specified, so the embedding takes a scheduler `sched` and the
theorems assume only that it permutes each batch's call list. -/

/-- A `SiftPointMatchOptions` value: the per-tile-pair
`firstCanvasPosition` field plus all remaining fields, opaque to the
dispatcher. -/
structure SiftOptions (α : Type) where
  firstCanvasPosition : String
  others : α
  deriving DecidableEq, Inhabited

/-- The object store of `SiftPointMatchOptions` instances; references are
indices into `cells`. -/
structure Heap (α : Type) where
  cells : List (SiftOptions α)
  deriving DecidableEq, Inhabited

/-- Read the object behind reference `r`. -/
def Heap.get {α : Type} [Inhabited α] (h : Heap α) (r : Nat) : SiftOptions α :=
  h.cells.getD r default

/-- One iteration of the `for i in batch.index` loop (lines 199-204):
clone the currently referenced options object
(`SiftPointMatchOptions(**sift_options.__dict__)` — a fresh object with
the same fields), overwrite the clone's `firstCanvasPosition` with the
row's `p.relativePosition`, rebind the local to the clone, and append
the clone's reference to `sift_options_batch`. -/
def siftStep {α : Type} [Inhabited α] (st : Heap α × Nat × List Nat)
    (row : TilePairRow) : Heap α × Nat × List Nat :=
  let h := st.1
  let cur := st.2.1
  let refs := st.2.2
  let newRef := h.cells.length
  let clone := h.get cur
  let h1 : Heap α := ⟨h.cells ++ [clone]⟩
  let h2 : Heap α :=
    ⟨h1.cells.set newRef
      { clone with firstCanvasPosition := row.pRelativePosition }⟩
  (h2, newRef, refs ++ [newRef])

/-- Lines 198-204: build `sift_options_batch` for one batch, threading
the heap and the rebound local reference. -/
def buildSiftBatch {α : Type} [Inhabited α] (batch : List TilePairRow)
    (h : Heap α) (cur : Nat) : Heap α × Nat × List Nat :=
  batch.foldl siftStep (h, cur, [])

/-- The arguments of one remote `pointMatchClient` invocation as issued
by `run_point_match_client` (lines 98-107): the closure-captured `stack`
and `collection`, the singleton tile-pair list `[(p.id, q.id)]`, and the
value of the submitted options object. -/
structure PMCall (α : Type) where
  stack : String
  collection : String
  tile_pairs : List (String × String)
  sift_options : SiftOptions α
  deriving DecidableEq, Inhabited

/-- Trace events of the dispatcher: pool creation (`WithPool(N_cores)`),
one remote invocation, pool teardown (leaving the `with` block). -/
inductive PoolEvent (α : Type) where
  | create (cores : Nat)
  | call (c : PMCall α)
  | close
  deriving DecidableEq, Inhabited

/-- The remote invocations appearing in a trace, in order. -/
def callEvents {α : Type} (trace : List (PoolEvent α)) : List (PMCall α) :=
  trace.filterMap (fun e =>
    match e with
    | PoolEvent.call c => some c
    | _ => none)

/-- Scanner for `groupRuns`: `k` is the key of the run being collected,
`run` its elements so far (reversed). -/
def groupRunsAux {α : Type} (k : Nat) (run : List (Nat × α)) :
    List (Nat × α) → List (List (Nat × α))
  | [] => [run.reverse]
  | y :: ys =>
    if y.1 == k then groupRunsAux k (y :: run) ys
    else run.reverse :: groupRunsAux y.1 [y] ys

/-- Maximal runs of equal keys.  `tile_pairs.groupby(grouping)` sorts the
groups by key; since `grouping = np.arange(len) // batch_size` is
non-decreasing, the key-sorted groups are exactly the maximal runs of
equal keys, in positional order. -/
def groupRuns {α : Type} : List (Nat × α) → List (List (Nat × α))
  | [] => []
  | x :: xs => groupRunsAux x.1 [x] xs

/-- Lines 183-185: group the rows of one `(stack, z)` group into batches
keyed by `np.arange(len(tile_pairs)) // batch_size`. -/
def batchesOf {α : Type} (batch_size : Nat) (rows : List α) : List (List α) :=
  let grouping := (List.range rows.length).map (fun i => i / batch_size)
  (groupRuns (grouping.zip rows)).map (fun run => run.map (fun y => y.2))

/-- Reference chunking: consecutive slices of `b` elements, the last
possibly shorter. -/
def chunksSpec {α : Type} (b : Nat) : List α → List (List α)
  | [] => []
  | x :: xs => (x :: xs.take (b - 1)) :: chunksSpec b (xs.drop (b - 1))
termination_by l => l.length
decreasing_by
  exact Nat.lt_succ_of_le (List.drop_sublist _ _).length_le

/-- The groupby key of `df_pairs.groupby(['stack', 'z'])`. -/
def keyOf (r : TilePairRow) : String × Int := (r.stack, r.z)

/-- Lexicographic comparison of strings by code point (the order Python
uses on `str`). -/
def strLtb : List Char → List Char → Bool
  | [], [] => false
  | [], _ :: _ => true
  | _ :: _, [] => false
  | c :: cs, d :: ds =>
    if c.toNat < d.toNat then true
    else if d.toNat < c.toNat then false
    else strLtb cs ds

/-- Lexicographic order on `(stack, z)` keys (pandas sorts group keys). -/
def keyLe (a b : String × Int) : Bool :=
  strLtb a.1.toList b.1.toList || (a.1 == b.1 && decide (a.2 ≤ b.2))

/-- Insert into a sorted list (ordinary insertion sort, used to model the
sorted group keys of pandas `groupby`). -/
def insertLe {α : Type} (le : α → α → Bool) (x : α) : List α → List α
  | [] => [x]
  | y :: ys => if le x y then x :: y :: ys else y :: insertLe le x ys

/-- Insertion sort by a Boolean order. -/
def sortByLe {α : Type} (le : α → α → Bool) : List α → List α
  | [] => []
  | x :: xs => insertLe le x (sortByLe le xs)

/-- `df_pairs.groupby(['stack', 'z'])`: the distinct keys in sorted
order, each paired with the rows carrying that key, in original row
order. -/
def groupByStackZ (rows : List TilePairRow) :
    List ((String × Int) × List TilePairRow) :=
  (sortByLe keyLe (rows.map keyOf).dedup).map (fun k =>
    (k, rows.filter (fun r => decide (keyOf r = k))))

/-- The body of the batch loop (lines 185-208): look the group's stack up
in `match_collections` (captured by the `pointMatchClient` closure),
build the singleton tile-pair lists, build the options batch in the
store, and run the pool: one remote invocation per row, the within-pool
order given by the scheduler, bracketed by pool creation and teardown. -/
def batchStep {α : Type} [Inhabited α] (match_collections : String → String)
    (stack : String) (N_cores : Nat)
    (sched : List (PMCall α) → List (PMCall α))
    (st : Heap α × Nat × List (PoolEvent α)) (batch : List TilePairRow) :
    Heap α × Nat × List (PoolEvent α) :=
  let collection := match_collections stack
  let tp_batch := batch.map (fun tp => [(tp.pId, tp.qId)])
  let built := buildSiftBatch batch st.1 st.2.1
  let calls := (tp_batch.zip built.2.2).map (fun x =>
    { stack := stack, collection := collection,
      tile_pairs := x.1, sift_options := built.1.get x.2 })
  (built.1, built.2.1,
   st.2.2 ++ PoolEvent.create N_cores
     :: ((sched calls).map PoolEvent.call ++ [PoolEvent.close]))

/-- `generate_point_matches` (lines 110-208): group by `(stack, z)`,
batch each group, and run the batch loop, threading the store, the
rebound `sift_options` local (initially the caller's reference `r0` into
`h0`), and the event trace.  The Python function returns `None`; the
returned triple is the final store, the final value of the local
reference, and the instrumented trace. -/
def generate_point_matches {α : Type} [Inhabited α]
    (df_pairs : List TilePairRow) (match_collections : String → String)
    (h0 : Heap α) (r0 : Nat) (N_cores batch_size : Nat)
    (sched : List (PMCall α) → List (PMCall α)) :
    Heap α × Nat × List (PoolEvent α) :=
  (groupByStackZ df_pairs).foldl
    (fun st g =>
      (batchesOf batch_size g.2).foldl
        (batchStep match_collections g.1.1 N_cores sched) st)
    (h0, r0, [])

/-- The invocation the dispatcher performs for row `r`: that row's
`(p.id, q.id)` as the single tile pair, the row's stack, the collection
looked up for that stack, and the options value differing from the
template only in `firstCanvasPosition` (set to the row's
`p.relativePosition`). -/
def canonicalCall {α : Type} (match_collections : String → String)
    (others : α) (r : TilePairRow) : PMCall α :=
  { stack := r.stack, collection := match_collections r.stack,
    tile_pairs := [(r.pId, r.qId)],
    sift_options :=
      { firstCanvasPosition := r.pRelativePosition, others := others } }

/-! ## Concrete environments used by the witnesses -/

/-- A small oracle environment: match collection with two sections, three
match rows in total, all tile ids carrying at least two digit runs. -/
def envTwoSections : RenderEnv :=
  { z_values_for_stack := fun _ => []
    tilePairClientJson := fun _ _ _ => ⟨[]⟩
    section_z_value := fun _ sectionId => if sectionId = "A" then 4 else 7
    matches_within_group := fun _ sectionId =>
      if sectionId = "A" then [⟨"gA", "R3C5", "gA", "R3C6", 10⟩]
      else [⟨"gB", "tile_1_2", "gB", "tile_3_4", 5⟩,
            ⟨"gB", "R0C1", "gB", "R0C2", 6⟩]
    match_groupIds := fun _ => ["A", "B"] }

/-- The table `get_matches_within_stack "S" "M" envTwoSections` returns. -/
def rowsTwoSections : List StackMatchRow :=
  [⟨"S", 4, "gA", "R3C5", 3, 5, "gA", "R3C6", 3, 6, 10⟩,
   ⟨"S", 7, "gB", "tile_1_2", 1, 2, "gB", "tile_3_4", 3, 4, 5⟩,
   ⟨"S", 7, "gB", "R0C1", 0, 1, "gB", "R0C2", 0, 2, 6⟩]

/-- An environment whose single section contains a match row whose p-side
tile id has no digit run at all. -/
def envBadId : RenderEnv :=
  { z_values_for_stack := fun _ => []
    tilePairClientJson := fun _ _ _ => ⟨[]⟩
    section_z_value := fun _ _ => 9
    matches_within_group := fun _ _ => [⟨"g", "nodigits", "g", "R1C2", 3⟩]
    match_groupIds := fun _ => ["A"] }

/-- The row `envBadId` puts into the concatenated match table. -/
def badIdRow : SectionMatchRow := ⟨"g", "nodigits", "g", "R1C2", 3, 9⟩

/-- A concrete five-row tile-pair table spanning three `(stack, z)`
groups, for exercising the dispatcher. -/
def dfFiveRows : List TilePairRow :=
  [⟨"p1", "q1", "LEFT", 1, "A"⟩, ⟨"p2", "q2", "TOP", 1, "A"⟩,
   ⟨"p3", "q3", "LEFT", 2, "A"⟩, ⟨"p4", "q4", "TOP", 1, "B"⟩,
   ⟨"p5", "q5", "BOTTOM", 1, "A"⟩]

/-- A concrete stack-to-collection mapping. -/
def collectionsOf (stack : String) : String := stack ++ "_pts"

/-- A one-object store holding the caller's options template at
reference 0; the opaque remaining fields are the number 42. -/
def heapOne : Heap Nat := ⟨[⟨"FIRST", 42⟩]⟩

/-- An environment whose match collection lists no section ids. -/
def envNoSections : RenderEnv :=
  { z_values_for_stack := fun _ => []
    tilePairClientJson := fun _ _ _ => ⟨[]⟩
    section_z_value := fun _ _ => 0
    matches_within_group := fun _ _ => []
    match_groupIds := fun _ => [] }

/-! ## Theorems: tile-pair collector and extraction pipeline -/

/-- Closed form of the collector's accumulating loop. -/
theorem get_tile_pairs_loop_spec (stack : String) (render : RenderEnv)
    (zs : List Int) (acc : List TPCall × List (NeighborPair × Int)) :
    zs.foldl
      (fun (acc : List TPCall × List (NeighborPair × Int)) z =>
        let tile_pairs_json := render.tilePairClientJson stack z z
        let df := tile_pairs_json.neighborPairs.map (fun p => (p, z))
        (acc.1 ++ [⟨stack, z, z⟩], acc.2 ++ df))
      acc
      = (acc.1 ++ zs.map (fun z => ⟨stack, z, z⟩),
         acc.2 ++ zs.flatMap (fun z =>
           (render.tilePairClientJson stack z z).neighborPairs.map
             (fun p => (p, z)))) := by
  induction zs generalizing acc with
  | nil => simp
  | cons z zs ih =>
    simp only [List.foldl_cons, List.map_cons, List.flatMap_cons]
    rw [ih]
    simp

theorem get_tile_pairs_calls (stack : String) (render : RenderEnv) :
    (get_tile_pairs_4_montage stack render).1
      = (render.z_values_for_stack stack).map (fun z => ⟨stack, z, z⟩) := by
  simp only [get_tile_pairs_4_montage]
  rw [get_tile_pairs_loop_spec]
  simp

theorem get_tile_pairs_rows (stack : String) (render : RenderEnv) :
    (get_tile_pairs_4_montage stack render).2
      = (render.z_values_for_stack stack).flatMap (fun z =>
          (render.tilePairClientJson stack z z).neighborPairs.map (fun p =>
            { pId := p.pId, qId := p.qId,
              pRelativePosition := p.pRelativePosition,
              z := z, stack := stack })) := by
  simp only [get_tile_pairs_4_montage]
  rw [get_tile_pairs_loop_spec]
  simp [List.map_flatMap, Function.comp_def]

/-- C5: the collector issues exactly one `tilePairClient` call per z value
(with `minz = maxz = z`, in z-value order); the combined table's row
count is the sum of the per-call row counts; every row produced by the
call for `z` carries that `z`, and every row's `stack` column is the
input stack.  (The returned list is indexed 0..count-1 by construction,
matching `reset_index(drop=True)`.) -/
theorem tile_pair_collector_one_call_per_z (stack : String)
    (render : RenderEnv) :
    (get_tile_pairs_4_montage stack render).1
        = (render.z_values_for_stack stack).map (fun z => ⟨stack, z, z⟩)
    ∧ (get_tile_pairs_4_montage stack render).2.length
        = ((render.z_values_for_stack stack).map (fun z =>
            (render.tilePairClientJson stack z z).neighborPairs.length)).sum
    ∧ (get_tile_pairs_4_montage stack render).2
        = (render.z_values_for_stack stack).flatMap (fun z =>
            (render.tilePairClientJson stack z z).neighborPairs.map (fun p =>
              { pId := p.pId, qId := p.qId,
                pRelativePosition := p.pRelativePosition,
                z := z, stack := stack }))
    ∧ ∀ r ∈ (get_tile_pairs_4_montage stack render).2, r.stack = stack := by
  refine ⟨get_tile_pairs_calls stack render, ?_, get_tile_pairs_rows stack render, ?_⟩
  · rw [get_tile_pairs_rows, List.flatMap_def, List.length_flatten]
    simp [Function.comp_def]
  · intro r hr
    rw [get_tile_pairs_rows] at hr
    simp only [List.mem_flatMap, List.mem_map] at hr
    obtain ⟨z, _, p, _, rfl⟩ := hr
    rfl


theorem stackMatchBase_loop_spec (stack match_collection : String)
    (render : RenderEnv) (sids : List String) (acc : List SectionMatchRow) :
    sids.foldl
      (fun acc sectionId =>
        acc ++ get_matches_within_section stack sectionId match_collection render)
      acc
      = acc ++ sids.flatMap (fun sectionId =>
          get_matches_within_section stack sectionId match_collection render) := by
  induction sids generalizing acc with
  | nil => simp
  | cons sid sids ih =>
    simp only [List.foldl_cons, List.flatMap_cons]
    rw [ih, List.append_assoc]

theorem stackMatchBase_eq (stack match_collection : String)
    (render : RenderEnv) :
    stackMatchBase stack match_collection render
      = (render.match_groupIds match_collection).flatMap (fun sectionId =>
          get_matches_within_section stack sectionId match_collection render) := by
  unfold stackMatchBase
  rw [stackMatchBase_loop_spec]
  simp

theorem get_matches_within_section_z (stack sectionId match_collection : String)
    (render : RenderEnv) :
    ∀ s ∈ get_matches_within_section stack sectionId match_collection render,
      s.z = render.section_z_value stack sectionId := by
  intro s hs
  simp only [get_matches_within_section, List.mem_map] at hs
  obtain ⟨m, _, rfl⟩ := hs
  rfl

theorem npStack_ok {arrays out : List (List Nat)}
    (h : npStack arrays = Except.ok out) : out = arrays ∧ arrays ≠ [] := by
  cases arrays with
  | nil => simp [npStack] at h
  | cons a rest =>
    simp only [npStack] at h
    by_cases hall : rest.all (fun b => b.length == a.length)
    · simp [hall] at h
      exact ⟨h.symm, by simp⟩
    · simp [hall] at h

theorem assignTwoCols_ok {arr : List (List Nat)} {l : List (Nat × Nat)}
    (h : assignTwoCols arr = Except.ok l) :
    List.Forall₂ (fun row pr => row = [pr.1, pr.2]) arr l := by
  induction arr generalizing l with
  | nil =>
    simp only [assignTwoCols] at h
    cases h
    exact List.Forall₂.nil
  | cons row rest ih =>
    match row with
    | [] => simp [assignTwoCols] at h
    | [a] => simp [assignTwoCols] at h
    | a :: b :: c :: t => simp [assignTwoCols] at h
    | [a, b] =>
      simp only [assignTwoCols] at h
      cases hrest : assignTwoCols rest with
      | error e => rw [hrest] at h; simp [Except.map] at h
      | ok l2 =>
        rw [hrest] at h
        simp only [Except.map] at h
        cases h
        exact List.Forall₂.cons rfl (ih hrest)

theorem assignTwoCols_error {arr : List (List Nat)}
    (h : ∃ row ∈ arr, row.length ≠ 2) :
    ∃ e, assignTwoCols arr = Except.error e := by
  induction arr with
  | nil => simp at h
  | cons row rest ih =>
    match row with
    | [] => exact ⟨_, rfl⟩
    | [a] => exact ⟨_, rfl⟩
    | a :: b :: c :: t => exact ⟨_, rfl⟩
    | [a, b] =>
      obtain ⟨bad, hmem, hlen⟩ := h
      rcases List.mem_cons.mp hmem with rfl | hmem2
      · simp at hlen
      · obtain ⟨e, he⟩ := ih ⟨bad, hmem2, hlen⟩
        exact ⟨e, by simp [assignTwoCols, he, Except.map]⟩

theorem stackAssignRC_ok {arrays : List (List Nat)} {l : List (Nat × Nat)}
    (h : stackAssignRC arrays = Except.ok l) :
    List.Forall₂ (fun row pr => row = [pr.1, pr.2]) arrays l := by
  unfold stackAssignRC at h
  cases hs : npStack arrays with
  | error e => rw [hs] at h; simp [Except.bind] at h
  | ok out =>
    rw [hs] at h
    simp only [Except.bind] at h
    obtain ⟨rfl, -⟩ := npStack_ok hs
    exact assignTwoCols_ok h

theorem stackAssignRC_error {arrays : List (List Nat)}
    (h : ∃ row ∈ arrays, row.length ≠ 2) :
    ∃ e, stackAssignRC arrays = Except.error e := by
  unfold stackAssignRC
  cases hs : npStack arrays with
  | error e => exact ⟨e, rfl⟩
  | ok out =>
    obtain ⟨rfl, -⟩ := npStack_ok hs
    obtain ⟨e, he⟩ := assignTwoCols_error h
    exact ⟨e, by simp [Except.bind, he]⟩

theorem forall₂_mem_left {α β : Type} {R : α → β → Prop} :
    ∀ {l1 : List α} {l2 : List β}, List.Forall₂ R l1 l2 →
      ∀ x ∈ l1, ∃ y, R x y := by
  intro l1 l2 h
  induction h with
  | nil => intro x hx; cases hx
  | cons hxy _ ih =>
    intro x hx
    rcases List.mem_cons.mp hx with rfl | hx2
    · exact ⟨_, hxy⟩
    · exact ih x hx2

theorem lastTwoRuns_length (x : String) :
    (lastTwoRuns x).length = min ((digitRuns x.toList).length) 2 := by
  simp only [lastTwoRuns, List.length_drop, List.length_map]
  omega

theorem zip3With_map_strip (stack : String) :
    ∀ (base : List SectionMatchRow) (p q : List (Nat × Nat)),
      p.length = base.length → q.length = base.length →
      (zip3With (mkStackRow stack) base p q).map stripStackRow = base := by
  intro base
  induction base with
  | nil => intro p q _ _; cases p <;> cases q <;> rfl
  | cons s bs ih =>
    intro p q hp hq
    match p, q with
    | pp :: ps, qq :: qs =>
      simp only [zip3With, List.map_cons]
      refine congrArg₂ _ rfl (ih ps qs ?_ ?_)
      · simpa using hp
      · simpa using hq

theorem zip3With_length (stack : String) :
    ∀ (base : List SectionMatchRow) (p q : List (Nat × Nat)),
      p.length = base.length → q.length = base.length →
      (zip3With (mkStackRow stack) base p q).length = base.length := by
  intro base p q hp hq
  have := congrArg List.length (zip3With_map_strip stack base p q hp hq)
  simpa using this

theorem zip3With_mem {P Q : SectionMatchRow → Nat × Nat → Prop} (stack : String) :
    ∀ {base : List SectionMatchRow} {p q : List (Nat × Nat)},
      List.Forall₂ P base p → List.Forall₂ Q base q →
      ∀ x ∈ zip3With (mkStackRow stack) base p q,
        ∃ s pp qq, P s pp ∧ Q s qq ∧ x = mkStackRow stack s pp qq := by
  intro base p q hP
  induction hP generalizing q with
  | nil => intro hQ x hx; cases hQ; cases hx
  | @cons s pp bs ps hsp htl ih =>
    intro hQ x hx
    cases hQ with
    | cons hsq hq =>
      simp only [zip3With, List.mem_cons] at hx
      rcases hx with rfl | hx
      · exact ⟨s, pp, _, hsp, hsq, rfl⟩
      · exact ih hq x hx

theorem get_matches_within_stack_ok_elim {stack match_collection : String}
    {render : RenderEnv} {rows : List StackMatchRow}
    (hok : get_matches_within_stack stack match_collection render
            = Except.ok rows) :
    ∃ pRC qRC,
      stackAssignRC ((stackMatchBase stack match_collection render).map
          (fun r => lastTwoRuns r.pId)) = Except.ok pRC
      ∧ stackAssignRC ((stackMatchBase stack match_collection render).map
          (fun r => lastTwoRuns r.qId)) = Except.ok qRC
      ∧ rows = zip3With (mkStackRow stack)
          (stackMatchBase stack match_collection render) pRC qRC := by
  simp only [get_matches_within_stack] at hok
  cases hp : stackAssignRC ((stackMatchBase stack match_collection render).map
      (fun r => lastTwoRuns r.pId)) with
  | error e => rw [hp] at hok; simp [Bind.bind, Except.bind] at hok
  | ok pRC =>
    rw [hp] at hok
    cases hq : stackAssignRC ((stackMatchBase stack match_collection render).map
        (fun r => lastTwoRuns r.qId)) with
    | error e => rw [hq] at hok; simp [Bind.bind, Except.bind] at hok
    | ok qRC =>
      rw [hq] at hok
      simp only [Bind.bind, Except.bind] at hok
      cases hok
      exact ⟨pRC, qRC, rfl, rfl, rfl⟩

/-- C6: whenever the stack match fetcher returns a table, its row count
is the sum of the per-section fetchers' row counts, the section-derived
columns of its rows are exactly the concatenation of the per-section
tables in section order, and every per-section row carries the z value
resolved for its section id from the stack metadata endpoint. -/
theorem stack_fetcher_counts_and_z (stack match_collection : String)
    (render : RenderEnv) (rows : List StackMatchRow)
    (hok : get_matches_within_stack stack match_collection render
            = Except.ok rows) :
    rows.length
        = ((render.match_groupIds match_collection).map (fun sectionId =>
            (get_matches_within_section stack sectionId match_collection
              render).length)).sum
    ∧ rows.map stripStackRow
        = (render.match_groupIds match_collection).flatMap (fun sectionId =>
            get_matches_within_section stack sectionId match_collection render)
    ∧ ∀ sectionId ∈ render.match_groupIds match_collection,
        ∀ s ∈ get_matches_within_section stack sectionId match_collection render,
          s.z = render.section_z_value stack sectionId := by
  obtain ⟨pRC, qRC, hp, hq, hrows⟩ := get_matches_within_stack_ok_elim hok
  have hplen : pRC.length = (stackMatchBase stack match_collection render).length := by
    have := (stackAssignRC_ok hp).length_eq
    simpa using this.symm
  have hqlen : qRC.length = (stackMatchBase stack match_collection render).length := by
    have := (stackAssignRC_ok hq).length_eq
    simpa using this.symm
  have hstrip : rows.map stripStackRow = stackMatchBase stack match_collection render := by
    rw [hrows]
    exact zip3With_map_strip stack _ pRC qRC hplen hqlen
  have hlen : rows.length = (stackMatchBase stack match_collection render).length := by
    rw [hrows]
    exact zip3With_length stack _ pRC qRC hplen hqlen
  refine ⟨?_, ?_, ?_⟩
  · rw [hlen, stackMatchBase_eq, List.flatMap_def, List.length_flatten,
      List.map_map]
    rfl
  · rw [hstrip, stackMatchBase_eq]
  · intro sectionId _
    exact get_matches_within_section_z stack sectionId match_collection render

/-- C1: the row/column extraction takes the last two digit runs of a tile
id; on `"R3C5"` it yields `[3, 5]` — `3` is the run following the row
marker `R` and `5` the run following the column marker `C` — and the
stack match fetcher applies the same extraction `lastTwoRuns` to the p
side (`pId`, stored as `(pc, pr)`) and to the q side (`qId`, stored as
`(qc, qr)`) of every row it returns. -/
theorem rc_extraction_R3C5 :
    lastTwoRuns "R3C5" = [3, 5]
    ∧ ∀ (stack match_collection : String) (render : RenderEnv)
        (rows : List StackMatchRow),
        get_matches_within_stack stack match_collection render = Except.ok rows →
        ∀ x ∈ rows,
          lastTwoRuns x.pId = [x.pc, x.pr] ∧ lastTwoRuns x.qId = [x.qc, x.qr] := by
  constructor
  · rfl
  · intro stack match_collection render rows hok x hx
    obtain ⟨pRC, qRC, hp, hq, hrows⟩ := get_matches_within_stack_ok_elim hok
    have hP := (List.forall₂_map_left_iff).mp (stackAssignRC_ok hp)
    have hQ := (List.forall₂_map_left_iff).mp (stackAssignRC_ok hq)
    rw [hrows] at hx
    obtain ⟨s, pp, qq, hsp, hsq, rfl⟩ := zip3With_mem stack hP hQ x hx
    exact ⟨hsp, hsq⟩

/-- C7: if any concatenated match row has a tile id (p or q side) with
fewer than two digit runs, the row/column extraction step of
`get_matches_within_stack` raises rather than returning a table. -/
theorem malformed_tile_id_raises (stack match_collection : String)
    (render : RenderEnv)
    (h : ∃ r ∈ stackMatchBase stack match_collection render,
          (digitRuns r.pId.toList).length < 2
          ∨ (digitRuns r.qId.toList).length < 2) :
    ∃ e, get_matches_within_stack stack match_collection render
          = Except.error e := by
  obtain ⟨r, hr, hbad⟩ := h
  cases hres : get_matches_within_stack stack match_collection render with
  | error e => exact ⟨e, rfl⟩
  | ok rows =>
    exfalso
    obtain ⟨pRC, qRC, hp, hq, -⟩ := get_matches_within_stack_ok_elim hres
    cases hbad with
    | inl hbadp =>
      obtain ⟨pr, hpr⟩ := forall₂_mem_left (stackAssignRC_ok hp)
        (lastTwoRuns r.pId) (List.mem_map_of_mem _ hr)
      have := congrArg List.length hpr
      rw [lastTwoRuns_length] at this
      simp at this
      simp only [String.toList] at hbadp
      omega
    | inr hbadq =>
      obtain ⟨pr, hpr⟩ := forall₂_mem_left (stackAssignRC_ok hq)
        (lastTwoRuns r.qId) (List.mem_map_of_mem _ hr)
      have := congrArg List.length hpr
      rw [lastTwoRuns_length] at this
      simp at this
      simp only [String.toList] at hbadq
      omega

/-- C10: when the per-section tables together contain no rows (for
example because the match collection lists no section ids), the
row/column derivation step fails with numpy's empty-stack error instead
of returning an empty table. -/
theorem empty_match_table_raises (stack match_collection : String)
    (render : RenderEnv)
    (h : stackMatchBase stack match_collection render = []) :
    get_matches_within_stack stack match_collection render
      = Except.error "need at least one array to stack" := by
  simp only [get_matches_within_stack]
  rw [h]
  rfl

/-- Witness for C6 at a concrete two-section environment. -/
theorem stack_fetcher_counts_and_z_witness :
    rowsTwoSections.length
      = ((envTwoSections.match_groupIds "M").map (fun sectionId =>
          (get_matches_within_section "S" sectionId "M"
            envTwoSections).length)).sum :=
  (stack_fetcher_counts_and_z "S" "M" envTwoSections rowsTwoSections rfl).1

/-- Witness for C1: the first returned row has `pId = "R3C5"` and indeed
`(pc, pr) = (3, 5)`, by the extraction theorem applied at a concrete
environment. -/
theorem rc_extraction_R3C5_witness :
    lastTwoRuns (rowsTwoSections.getD 0 default).pId
        = [(rowsTwoSections.getD 0 default).pc, (rowsTwoSections.getD 0 default).pr]
    ∧ lastTwoRuns (rowsTwoSections.getD 0 default).qId
        = [(rowsTwoSections.getD 0 default).qc, (rowsTwoSections.getD 0 default).qr] :=
  rc_extraction_R3C5.2 "S" "M" envTwoSections rowsTwoSections rfl
    (rowsTwoSections.getD 0 default) (by decide)

/-- Witness for C7 at a concrete environment with a digit-free tile id. -/
theorem malformed_tile_id_raises_witness :
    ∃ e, get_matches_within_stack "S" "M" envBadId = Except.error e :=
  malformed_tile_id_raises "S" "M" envBadId
    ⟨badIdRow, by decide, Or.inl (by decide)⟩

/-- Witness for C10 at a concrete environment listing no section ids. -/
theorem empty_match_table_raises_witness :
    get_matches_within_stack "S" "M" envNoSections
      = Except.error "need at least one array to stack" :=
  empty_match_table_raises "S" "M" envNoSections rfl

/-! ## Theorems: the dispatcher's store and trace -/

theorem set_append_singleton {β : Type} (l : List β) (c v : β) :
    (l ++ [c]).set l.length v = l ++ [v] := by
  simp [List.set_append]

theorem getD_append_self {β : Type} (l l2 : List β) (d : β) :
    (l ++ l2).getD l.length d = l2.getD 0 d := by
  rw [List.getD_append_right l l2 d l.length (Nat.le_refl _), Nat.sub_self]

theorem heap_get_range {α : Type} [Inhabited α] :
    ∀ (vals pre : List (SiftOptions α)),
      (List.range' pre.length vals.length).map
          (fun i => (Heap.mk (pre ++ vals)).get i) = vals := by
  intro vals
  induction vals with
  | nil => intro pre; simp
  | cons v vs ih =>
    intro pre
    rw [List.length_cons, List.range'_succ, List.map_cons]
    refine congrArg₂ _ ?_ ?_
    · show (pre ++ v :: vs).getD pre.length default = v
      rw [getD_append_self, List.getD_cons_zero]
    · have h2 : pre ++ v :: vs = (pre ++ [v]) ++ vs := by simp
      have h3 : pre.length + 1 = (pre ++ [v]).length := by simp
      rw [h2, h3]
      exact ih (pre ++ [v])

/-- Closed form of one batch's options-building loop: the store gains one
cell per row, holding the row's `p.relativePosition` together with the
untouched remaining fields of the object the local reference entered the
loop pointing at; the references collected are the fresh indices in
order, and the final local reference still points at an object with the
same remaining fields. -/
theorem buildSiftBatch_spec {α : Type} [Inhabited α] :
    ∀ (batch : List TilePairRow) (h : Heap α) (cur : Nat) (refs0 : List Nat),
      (batch.foldl siftStep (h, cur, refs0)).1.cells
          = h.cells ++ batch.map (fun r =>
              ⟨r.pRelativePosition, (h.get cur).others⟩)
      ∧ ((batch.foldl siftStep (h, cur, refs0)).1.get
            (batch.foldl siftStep (h, cur, refs0)).2.1).others
          = (h.get cur).others
      ∧ (batch.foldl siftStep (h, cur, refs0)).2.2
          = refs0 ++ List.range' h.cells.length batch.length := by
  intro batch
  induction batch with
  | nil => intro h cur refs0; exact ⟨by simp, rfl, by simp⟩
  | cons r rest ih =>
    intro h cur refs0
    have hstep : siftStep (h, cur, refs0) r
        = (⟨h.cells ++ [⟨r.pRelativePosition, (h.get cur).others⟩]⟩,
           h.cells.length, refs0 ++ [h.cells.length]) := by
      simp only [siftStep]
      rw [set_append_singleton]
    have hget : ((⟨h.cells ++ [⟨r.pRelativePosition, (h.get cur).others⟩]⟩ :
        Heap α).get h.cells.length).others = (h.get cur).others := by
      show ((h.cells ++ [_]).getD h.cells.length default).others = _
      rw [getD_append_self, List.getD_cons_zero]
    rw [List.foldl_cons, hstep]
    obtain ⟨ih1, ih2, ih3⟩ := ih
      ⟨h.cells ++ [⟨r.pRelativePosition, (h.get cur).others⟩]⟩
      h.cells.length (refs0 ++ [h.cells.length])
    refine ⟨?_, ?_, ?_⟩
    · rw [ih1, hget]
      simp
    · rw [ih2, hget]
    · rw [ih3]
      have hlen : (h.cells ++
          [({ firstCanvasPosition := r.pRelativePosition,
              others := (h.get cur).others } : SiftOptions α)]).length
          = h.cells.length + 1 := by simp
      rw [hlen, List.length_cons, List.range'_succ]
      simp

theorem zip_replicate_key {β : Type} (c : Nat) :
    ∀ (l : List β), (List.replicate l.length c).zip l = l.map (Prod.mk c) := by
  intro l
  induction l with
  | nil => rfl
  | cons x xs ih => simp [List.replicate, ih]

/-- The per-batch call list: zipping the singleton tile-pair lists with
the fresh references and reading the store yields exactly one call per
row, carrying that row's tile pair and options value. -/
theorem batch_calls_eq {α : Type} [Inhabited α] (stack coll : String)
    (O : α) (getf : Nat → SiftOptions α) :
    ∀ (batch : List TilePairRow) (refs : List Nat),
      refs.length = batch.length →
      refs.map getf = batch.map (fun r => ⟨r.pRelativePosition, O⟩) →
      ((batch.map (fun tp => [(tp.pId, tp.qId)])).zip refs).map (fun x =>
          ({ stack := stack, collection := coll,
             tile_pairs := x.1, sift_options := getf x.2 } : PMCall α))
        = batch.map (fun r =>
            ({ stack := stack, collection := coll,
               tile_pairs := [(r.pId, r.qId)],
               sift_options := ⟨r.pRelativePosition, O⟩ } : PMCall α)) := by
  intro batch
  induction batch with
  | nil => intro refs _ _; simp
  | cons r rest ih =>
    intro refs hlen hvals
    match refs with
    | y :: ys =>
      simp only [List.map_cons] at hvals ⊢
      rw [List.cons.injEq] at hvals
      simp only [List.zip_cons_cons, List.map_cons]
      refine congrArg₂ _ ?_ ?_
      · rw [hvals.1]
      · exact ih ys (by simpa using hlen) hvals.2

/-- Closed form of one iteration of the batch loop. -/
theorem batchStep_spec {α : Type} [Inhabited α]
    (match_collections : String → String) (stack : String) (N_cores : Nat)
    (sched : List (PMCall α) → List (PMCall α))
    (batch : List TilePairRow) (st : Heap α × Nat × List (PoolEvent α)) :
    (batchStep match_collections stack N_cores sched st batch).1.cells
        = st.1.cells ++ batch.map (fun r =>
            ⟨r.pRelativePosition, (st.1.get st.2.1).others⟩)
    ∧ ((batchStep match_collections stack N_cores sched st batch).1.get
          (batchStep match_collections stack N_cores sched st batch).2.1).others
        = (st.1.get st.2.1).others
    ∧ (batchStep match_collections stack N_cores sched st batch).2.2
        = st.2.2 ++ PoolEvent.create N_cores
            :: ((sched (batch.map (fun r =>
                  ({ stack := stack, collection := match_collections stack,
                     tile_pairs := [(r.pId, r.qId)],
                     sift_options := ⟨r.pRelativePosition,
                       (st.1.get st.2.1).others⟩ } : PMCall α)))).map
                PoolEvent.call ++ [PoolEvent.close]) := by
  obtain ⟨hb1, hb2, hb3⟩ := buildSiftBatch_spec batch st.1 st.2.1 []
  have hcalls :
      ((batch.map (fun tp => [(tp.pId, tp.qId)])).zip
          (buildSiftBatch batch st.1 st.2.1).2.2).map (fun x =>
        ({ stack := stack, collection := match_collections stack,
           tile_pairs := x.1,
           sift_options := (buildSiftBatch batch st.1 st.2.1).1.get x.2 } :
          PMCall α))
      = batch.map (fun r =>
          ({ stack := stack, collection := match_collections stack,
             tile_pairs := [(r.pId, r.qId)],
             sift_options := ⟨r.pRelativePosition,
               (st.1.get st.2.1).others⟩ } : PMCall α)) := by
    refine batch_calls_eq stack (match_collections stack)
      (st.1.get st.2.1).others _ batch (buildSiftBatch batch st.1 st.2.1).2.2
      ?_ ?_
    · unfold buildSiftBatch
      rw [hb3]
      simp
    · unfold buildSiftBatch
      rw [hb3, List.nil_append]
      have hcells : (batch.foldl siftStep (st.1, st.2.1, [])).1
          = ⟨st.1.cells ++ batch.map (fun r =>
              ⟨r.pRelativePosition, (st.1.get st.2.1).others⟩)⟩ := by
        cases hres : (batch.foldl siftStep (st.1, st.2.1, [])).1
        rw [hres] at hb1
        simpa using hb1
      rw [hcells]
      have := heap_get_range
        (batch.map (fun r =>
          (⟨r.pRelativePosition, (st.1.get st.2.1).others⟩ : SiftOptions α)))
        st.1.cells
      rw [List.length_map] at this
      exact this
  refine ⟨?_, ?_, ?_⟩
  · show (buildSiftBatch batch st.1 st.2.1).1.cells = _
    exact hb1
  · show ((buildSiftBatch batch st.1 st.2.1).1.get
        (buildSiftBatch batch st.1 st.2.1).2.1).others = _
    exact hb2
  · show st.2.2 ++ PoolEvent.create N_cores :: (List.map PoolEvent.call
        (sched _) ++ [PoolEvent.close]) = _
    rw [hcalls]

/-- Closed form of the batch loop of one `(stack, z)` group. -/
theorem batch_loop_spec {α : Type} [Inhabited α]
    (match_collections : String → String) (stack : String) (N_cores : Nat)
    (sched : List (PMCall α) → List (PMCall α)) :
    ∀ (batches : List (List TilePairRow))
      (st : Heap α × Nat × List (PoolEvent α)),
      (batches.foldl (batchStep match_collections stack N_cores sched) st).1.cells
          = st.1.cells ++ batches.flatten.map (fun r =>
              ⟨r.pRelativePosition, (st.1.get st.2.1).others⟩)
      ∧ ((batches.foldl (batchStep match_collections stack N_cores sched) st).1.get
            (batches.foldl (batchStep match_collections stack N_cores sched) st).2.1).others
          = (st.1.get st.2.1).others
      ∧ (batches.foldl (batchStep match_collections stack N_cores sched) st).2.2
          = st.2.2 ++ batches.flatMap (fun batch =>
              PoolEvent.create N_cores
                :: ((sched (batch.map (fun r =>
                      ({ stack := stack,
                         collection := match_collections stack,
                         tile_pairs := [(r.pId, r.qId)],
                         sift_options := ⟨r.pRelativePosition,
                           (st.1.get st.2.1).others⟩ } : PMCall α)))).map
                    PoolEvent.call ++ [PoolEvent.close])) := by
  intro batches
  induction batches with
  | nil => intro st; exact ⟨by simp, rfl, by simp⟩
  | cons b bs ih =>
    intro st
    obtain ⟨hs1, hs2, hs3⟩ :=
      batchStep_spec match_collections stack N_cores sched b st
    obtain ⟨ih1, ih2, ih3⟩ :=
      ih (batchStep match_collections stack N_cores sched st b)
    rw [List.foldl_cons]
    refine ⟨?_, ?_, ?_⟩
    · rw [ih1, hs1, hs2]
      simp
    · rw [ih2, hs2]
    · rw [ih3, hs3, hs2, List.flatMap_cons]
      simp

/-- Closed form of the whole dispatcher run, relative to an arbitrary
starting state. -/
theorem group_loop_spec {α : Type} [Inhabited α]
    (match_collections : String → String) (N_cores batch_size : Nat)
    (sched : List (PMCall α) → List (PMCall α)) :
    ∀ (gs : List ((String × Int) × List TilePairRow))
      (st : Heap α × Nat × List (PoolEvent α)),
      (gs.foldl (fun st g =>
          (batchesOf batch_size g.2).foldl
            (batchStep match_collections g.1.1 N_cores sched) st) st).1.cells
          = st.1.cells ++ (gs.flatMap (fun g =>
              (batchesOf batch_size g.2).flatten)).map (fun r =>
                ⟨r.pRelativePosition, (st.1.get st.2.1).others⟩)
      ∧ ((gs.foldl (fun st g =>
            (batchesOf batch_size g.2).foldl
              (batchStep match_collections g.1.1 N_cores sched) st) st).1.get
          (gs.foldl (fun st g =>
            (batchesOf batch_size g.2).foldl
              (batchStep match_collections g.1.1 N_cores sched) st) st).2.1).others
          = (st.1.get st.2.1).others
      ∧ (gs.foldl (fun st g =>
            (batchesOf batch_size g.2).foldl
              (batchStep match_collections g.1.1 N_cores sched) st) st).2.2
          = st.2.2 ++ gs.flatMap (fun g =>
              (batchesOf batch_size g.2).flatMap (fun batch =>
                PoolEvent.create N_cores
                  :: ((sched (batch.map (fun r =>
                        ({ stack := g.1.1,
                           collection := match_collections g.1.1,
                           tile_pairs := [(r.pId, r.qId)],
                           sift_options := ⟨r.pRelativePosition,
                             (st.1.get st.2.1).others⟩ } : PMCall α)))).map
                      PoolEvent.call ++ [PoolEvent.close]))) := by
  intro gs
  induction gs with
  | nil => intro st; exact ⟨by simp, rfl, by simp⟩
  | cons g gs ih =>
    intro st
    obtain ⟨hb1, hb2, hb3⟩ := batch_loop_spec match_collections g.1.1 N_cores
      sched (batchesOf batch_size g.2) st
    obtain ⟨ih1, ih2, ih3⟩ := ih ((batchesOf batch_size g.2).foldl
      (batchStep match_collections g.1.1 N_cores sched) st)
    rw [List.foldl_cons]
    refine ⟨?_, ?_, ?_⟩
    · rw [ih1, hb1, hb2, List.flatMap_cons]
      simp
    · rw [ih2, hb2]
    · rw [ih3, hb3, hb2, List.flatMap_cons]
      simp

/-- C9: the dispatcher performs every attribute write on a freshly
allocated clone: the run only appends cells to the store, so after it
returns every pre-existing object — in particular the caller's options
template — holds exactly the value it held before. -/
theorem dispatcher_never_mutates_template {α : Type} [Inhabited α]
    (df_pairs : List TilePairRow) (match_collections : String → String)
    (h0 : Heap α) (r0 : Nat) (N_cores batch_size : Nat)
    (sched : List (PMCall α) → List (PMCall α)) :
    (generate_point_matches df_pairs match_collections h0 r0 N_cores
        batch_size sched).1.cells.take h0.cells.length = h0.cells
    ∧ ∀ r, r < h0.cells.length →
        (generate_point_matches df_pairs match_collections h0 r0 N_cores
            batch_size sched).1.get r = h0.get r := by
  obtain ⟨h1, -, -⟩ := group_loop_spec match_collections N_cores batch_size
    sched (groupByStackZ df_pairs) (h0, r0, [])
  constructor
  · show (generate_point_matches df_pairs match_collections h0 r0 N_cores
        batch_size sched).1.cells.take h0.cells.length = h0.cells
    unfold generate_point_matches
    rw [h1]
    exact List.take_left h0.cells _
  · intro r hr
    show ((generate_point_matches df_pairs match_collections h0 r0 N_cores
        batch_size sched).1.cells.getD r default) = h0.cells.getD r default
    unfold generate_point_matches
    rw [h1]
    exact List.getD_append h0.cells _ default r hr

/-! ## Theorems: trace bookkeeping and grouping -/

theorem callEvents_append {α : Type} (l1 l2 : List (PoolEvent α)) :
    callEvents (l1 ++ l2) = callEvents l1 ++ callEvents l2 :=
  List.filterMap_append l1 l2 _

theorem callEvents_map_call {α : Type} (cs : List (PMCall α)) :
    callEvents (cs.map PoolEvent.call) = cs := by
  induction cs with
  | nil => rfl
  | cons c cs ih => simp [callEvents, List.filterMap_cons] at ih ⊢; exact ih

theorem callEvents_block {α : Type} (N : Nat) (cs : List (PMCall α)) :
    callEvents (PoolEvent.create N :: (cs.map PoolEvent.call
        ++ [PoolEvent.close])) = cs := by
  show callEvents (PoolEvent.create N
      :: (cs.map PoolEvent.call ++ [PoolEvent.close])) = cs
  rw [show (PoolEvent.create N :: (cs.map PoolEvent.call ++ [PoolEvent.close])
      : List (PoolEvent α))
      = [PoolEvent.create N] ++ cs.map PoolEvent.call ++ [PoolEvent.close] by simp,
    callEvents_append, callEvents_append, callEvents_map_call]
  simp [callEvents, List.filterMap_cons]

theorem callEvents_flatMap {α β : Type} (F : β → List (PoolEvent α)) :
    ∀ l : List β, callEvents (l.flatMap F) = l.flatMap (fun x => callEvents (F x)) := by
  intro l
  induction l with
  | nil => rfl
  | cons x xs ih => rw [List.flatMap_cons, List.flatMap_cons, callEvents_append, ih]

theorem flatMap_congr_mem {α β : Type} {l : List α} {f g : α → List β}
    (h : ∀ x ∈ l, f x = g x) : l.flatMap f = l.flatMap g := by
  induction l with
  | nil => rfl
  | cons x xs ih =>
    rw [List.flatMap_cons, List.flatMap_cons, h x (by simp),
      ih (fun y hy => h y (by simp [hy]))]

theorem flatMap_perm_congr {α β : Type} {l : List α} {f g : α → List β}
    (h : ∀ x ∈ l, (f x).Perm (g x)) : (l.flatMap f).Perm (l.flatMap g) := by
  induction l with
  | nil => exact List.Perm.refl _
  | cons x xs ih =>
    rw [List.flatMap_cons, List.flatMap_cons]
    exact (h x (by simp)).append (ih (fun y hy => h y (by simp [hy])))

theorem flatMap_map_eq_map_flatMap {α β γ : Type} (l : List α)
    (f : α → List β) (F : β → γ) :
    l.flatMap (fun x => (f x).map F) = (l.flatMap f).map F := by
  rw [List.flatMap_def, List.flatMap_def, List.map_flatten, List.map_map]
  rfl

theorem insertLe_perm {α : Type} (le : α → α → Bool) (x : α) :
    ∀ l : List α, (insertLe le x l).Perm (x :: l) := by
  intro l
  induction l with
  | nil => exact List.Perm.refl _
  | cons y ys ih =>
    simp only [insertLe]
    by_cases hle : le x y
    · rw [if_pos hle]
    · rw [if_neg hle]
      exact (List.Perm.cons y ih).trans (List.Perm.swap x y ys)

theorem sortByLe_perm {α : Type} (le : α → α → Bool) :
    ∀ l : List α, (sortByLe le l).Perm l := by
  intro l
  induction l with
  | nil => exact List.Perm.refl _
  | cons x xs ih =>
    show (insertLe le x (sortByLe le xs)).Perm (x :: xs)
    exact (insertLe_perm le x _).trans (List.Perm.cons x ih)

theorem filter_partition_perm {α β : Type} [DecidableEq β] (key : α → β) :
    ∀ (ks : List β) (rows : List α), ks.Nodup →
      (∀ r ∈ rows, key r ∈ ks) →
      (ks.flatMap (fun k =>
        rows.filter (fun r => decide (key r = k)))).Perm rows := by
  intro ks
  induction ks with
  | nil =>
    intro rows _ hc
    cases rows with
    | nil => exact List.Perm.refl _
    | cons r t => exact absurd (hc r (by simp)) (List.not_mem_nil _)
  | cons k ks ih =>
    intro rows hnd hc
    rw [List.flatMap_cons]
    have hknotin : k ∉ ks := (List.nodup_cons.mp hnd).1
    have hrest : ks.flatMap (fun k2 => rows.filter (fun r => decide (key r = k2)))
        = ks.flatMap (fun k2 =>
            (rows.filter (fun r => !decide (key r = k))).filter
              (fun r => decide (key r = k2))) := by
      refine flatMap_congr_mem (fun k2 hk2 => ?_)
      have hk2ne : k2 ≠ k := fun he => hknotin (he ▸ hk2)
      rw [List.filter_filter]
      refine (List.filter_congr (fun r _ => ?_)).symm
      by_cases hr : key r = k2
      · simp [hr, hk2ne]
      · simp [hr]
    rw [hrest]
    have hstep : (ks.flatMap (fun k2 =>
        (rows.filter (fun r => !decide (key r = k))).filter
          (fun r => decide (key r = k2)))).Perm
        (rows.filter (fun r => !decide (key r = k))) := by
      refine ih _ (List.nodup_cons.mp hnd).2 (fun r hr => ?_)
      have hmem := List.mem_filter.mp hr
      have hne : key r ≠ k := by simpa using hmem.2
      have := hc r hmem.1
      simpa [hne] using this
    exact (List.Perm.append_left _ hstep).trans
      (List.filter_append_perm (fun r => decide (key r = k)) rows)

theorem groupByStackZ_mem_key (rows : List TilePairRow) :
    ∀ g ∈ groupByStackZ rows, ∀ r ∈ g.2, keyOf r = g.1 := by
  intro g hg r hr
  simp only [groupByStackZ, List.mem_map] at hg
  obtain ⟨k, -, rfl⟩ := hg
  have := (List.mem_filter.mp hr).2
  simpa using this

theorem groupByStackZ_flatMap_perm (rows : List TilePairRow) :
    ((groupByStackZ rows).flatMap (fun g => g.2)).Perm rows := by
  unfold groupByStackZ
  rw [show ((sortByLe keyLe (rows.map keyOf).dedup).map (fun k =>
      (k, rows.filter (fun r => decide (keyOf r = k))))).flatMap (fun g => g.2)
      = (sortByLe keyLe (rows.map keyOf).dedup).flatMap (fun k =>
          rows.filter (fun r => decide (keyOf r = k))) by
    rw [List.flatMap_def, List.map_map]; rfl]
  refine filter_partition_perm keyOf _ rows ?_ ?_
  · exact (sortByLe_perm keyLe _).symm.nodup (List.nodup_dedup _)
  · intro r hr
    exact (sortByLe_perm keyLe _).mem_iff.mpr
      (List.mem_dedup.mpr (List.mem_map_of_mem keyOf hr))

theorem groupRunsAux_flatten {β : Type} :
    ∀ (l : List (Nat × β)) (k : Nat) (run : List (Nat × β)),
      (groupRunsAux k run l).flatten = run.reverse ++ l := by
  intro l
  induction l with
  | nil => intro k run; simp [groupRunsAux]
  | cons y ys ih =>
    intro k run
    simp only [groupRunsAux]
    by_cases hk : y.1 == k
    · rw [if_pos hk, ih k (y :: run), List.reverse_cons]
      simp
    · rw [if_neg hk]
      simp only [List.flatten_cons]
      rw [ih y.1 [y]]
      simp

theorem groupRuns_flatten {β : Type} :
    ∀ l : List (Nat × β), (groupRuns l).flatten = l := by
  intro l
  cases l with
  | nil => rfl
  | cons x xs =>
    show (groupRunsAux x.1 [x] xs).flatten = x :: xs
    rw [groupRunsAux_flatten xs x.1 [x]]
    rfl

/-- Whatever the batch size, the batches of one group concatenate back to
the group's rows in order. -/
theorem batchesOf_flatten {β : Type} (batch_size : Nat) (rows : List β) :
    (batchesOf batch_size rows).flatten = rows := by
  unfold batchesOf
  rw [show ((groupRuns (((List.range rows.length).map
      (fun i => i / batch_size)).zip rows)).map (fun run =>
        run.map (fun y => y.2))).flatten
      = (((List.range rows.length).map (fun i => i / batch_size)).zip
          rows).map (fun y => y.2) by
    rw [← List.map_flatten, groupRuns_flatten]]
  have hlen : rows.length ≤ ((List.range rows.length).map
      (fun i => i / batch_size)).length := by simp
  exact List.map_snd_zip _ rows hlen

theorem mem_of_mem_batchesOf {β : Type} {batch_size : Nat}
    {rows : List β} {b : List β} (hb : b ∈ batchesOf batch_size rows) :
    ∀ r ∈ b, r ∈ rows := by
  intro r hr
  rw [← batchesOf_flatten batch_size rows]
  exact List.mem_flatten.mpr ⟨b, hb, hr⟩

/-! ## Theorems: the dispatcher claims C2, C3, C8 -/

/-- The remote invocations of one dispatcher run, as a list: one per
batch-block of the trace, in the scheduler's within-batch order. -/
theorem dispatcher_callEvents {α : Type} [Inhabited α]
    (df_pairs : List TilePairRow) (match_collections : String → String)
    (h0 : Heap α) (r0 : Nat) (N_cores batch_size : Nat)
    (sched : List (PMCall α) → List (PMCall α)) :
    callEvents (generate_point_matches df_pairs match_collections h0 r0
        N_cores batch_size sched).2.2
      = (groupByStackZ df_pairs).flatMap (fun g =>
          (batchesOf batch_size g.2).flatMap (fun batch =>
            sched (batch.map (fun r =>
              ({ stack := g.1.1, collection := match_collections g.1.1,
                 tile_pairs := [(r.pId, r.qId)],
                 sift_options := ⟨r.pRelativePosition,
                   (h0.get r0).others⟩ } : PMCall α))))) := by
  obtain ⟨-, -, h3⟩ := group_loop_spec match_collections N_cores batch_size
    sched (groupByStackZ df_pairs) (h0, r0, [])
  show callEvents ((groupByStackZ df_pairs).foldl _ (h0, r0, [])).2.2 = _
  rw [h3, List.nil_append, callEvents_flatMap]
  refine flatMap_congr_mem (fun g _ => ?_)
  rw [callEvents_flatMap]
  refine flatMap_congr_mem (fun batch _ => ?_)
  exact callEvents_block N_cores _

/-- C3: under any scheduler that permutes each batch, the multiset of
remote invocations of one dispatcher run is exactly one invocation per
row of the tile-pair table, each carrying that row's `(p.id, q.id)` as
its single tile pair, the row's stack, and the collection obtained by
looking that stack up in the supplied mapping.  (The Python function
itself returns `None`; its only effect is this sequence of remote
calls.) -/
theorem dispatcher_one_call_per_row {α : Type} [Inhabited α]
    (df_pairs : List TilePairRow) (match_collections : String → String)
    (h0 : Heap α) (r0 : Nat) (N_cores batch_size : Nat)
    (sched : List (PMCall α) → List (PMCall α))
    (hsched : ∀ l, (sched l).Perm l) :
    (callEvents (generate_point_matches df_pairs match_collections h0 r0
        N_cores batch_size sched).2.2).Perm
      (df_pairs.map (canonicalCall match_collections (h0.get r0).others)) := by
  rw [dispatcher_callEvents]
  have hstep1 : ((groupByStackZ df_pairs).flatMap (fun g =>
      (batchesOf batch_size g.2).flatMap (fun batch =>
        sched (batch.map (fun r =>
          ({ stack := g.1.1, collection := match_collections g.1.1,
             tile_pairs := [(r.pId, r.qId)],
             sift_options := ⟨r.pRelativePosition,
               (h0.get r0).others⟩ } : PMCall α)))))).Perm
      ((groupByStackZ df_pairs).flatMap (fun g =>
        (batchesOf batch_size g.2).flatMap (fun batch =>
          batch.map (fun r =>
            ({ stack := g.1.1, collection := match_collections g.1.1,
               tile_pairs := [(r.pId, r.qId)],
               sift_options := ⟨r.pRelativePosition,
                 (h0.get r0).others⟩ } : PMCall α))))) := by
    refine flatMap_perm_congr (fun g _ => ?_)
    exact flatMap_perm_congr (fun batch _ => hsched _)
  refine hstep1.trans ?_
  have hstep2 : (groupByStackZ df_pairs).flatMap (fun g =>
      (batchesOf batch_size g.2).flatMap (fun batch =>
        batch.map (fun r =>
          ({ stack := g.1.1, collection := match_collections g.1.1,
             tile_pairs := [(r.pId, r.qId)],
             sift_options := ⟨r.pRelativePosition,
               (h0.get r0).others⟩ } : PMCall α))))
      = (groupByStackZ df_pairs).flatMap (fun g =>
          g.2.map (canonicalCall match_collections (h0.get r0).others)) := by
    refine flatMap_congr_mem (fun g hg => ?_)
    rw [flatMap_map_eq_map_flatMap, show (batchesOf batch_size g.2).flatMap
        (fun b => b) = (batchesOf batch_size g.2).flatten by
      rw [List.flatMap_def, List.map_id_fun']
      rfl, batchesOf_flatten]
    refine List.map_congr_left (fun r hr => ?_)
    have hk := groupByStackZ_mem_key df_pairs g hg r hr
    unfold canonicalCall
    have hstack : r.stack = g.1.1 := by
      rw [show r.stack = (keyOf r).1 from rfl, hk]
    rw [hstack]
  rw [hstep2,
    show (groupByStackZ df_pairs).flatMap (fun g =>
        g.2.map (canonicalCall match_collections (h0.get r0).others))
      = ((groupByStackZ df_pairs).flatMap (fun g => g.2)).map
          (canonicalCall match_collections (h0.get r0).others) from
      flatMap_map_eq_map_flatMap _ _ _]
  exact (groupByStackZ_flatMap_perm df_pairs).map _

/-- C2: every options object submitted by the dispatcher agrees with the
caller's template on every field other than `firstCanvasPosition`, and
its `firstCanvasPosition` is the `p.relativePosition` of the row it was
cloned for — across all rows, batches and `(stack, z)` groups. -/
theorem dispatcher_clone_only_changes_position {α : Type} [Inhabited α]
    (df_pairs : List TilePairRow) (match_collections : String → String)
    (h0 : Heap α) (r0 : Nat) (N_cores batch_size : Nat)
    (sched : List (PMCall α) → List (PMCall α))
    (hsched : ∀ l, (sched l).Perm l) :
    ∀ c ∈ callEvents (generate_point_matches df_pairs match_collections
        h0 r0 N_cores batch_size sched).2.2,
      c.sift_options.others = (h0.get r0).others
      ∧ ∃ r ∈ df_pairs,
          c.tile_pairs = [(r.pId, r.qId)]
          ∧ c.sift_options.firstCanvasPosition = r.pRelativePosition := by
  intro c hc
  have hmem := (dispatcher_one_call_per_row df_pairs match_collections h0 r0
    N_cores batch_size sched hsched).mem_iff.mp hc
  obtain ⟨r, hr, rfl⟩ := List.mem_map.mp hmem
  exact ⟨rfl, r, hr, rfl, rfl⟩

/-- C8: the dispatcher's trace decomposes into one contiguous
`create … close` block per batch, the blocks following the batch order
within each group and the group order across groups; within a block the
calls are the scheduler's arrangement of exactly that batch's calls.  No
two pools' calls interleave, and every call of one batch precedes every
call of later batches. -/
theorem dispatcher_pools_sequential {α : Type} [Inhabited α]
    (df_pairs : List TilePairRow) (match_collections : String → String)
    (h0 : Heap α) (r0 : Nat) (N_cores batch_size : Nat)
    (sched : List (PMCall α) → List (PMCall α))
    (hsched : ∀ l, (sched l).Perm l) :
    (generate_point_matches df_pairs match_collections h0 r0 N_cores
        batch_size sched).2.2
      = ((groupByStackZ df_pairs).flatMap (fun g =>
          batchesOf batch_size g.2)).flatMap (fun batch =>
            PoolEvent.create N_cores
              :: ((sched (batch.map (canonicalCall match_collections
                    (h0.get r0).others))).map PoolEvent.call
                  ++ [PoolEvent.close]))
    ∧ ∀ batch ∈ (groupByStackZ df_pairs).flatMap (fun g =>
          batchesOf batch_size g.2),
        (sched (batch.map (canonicalCall match_collections
            (h0.get r0).others))).Perm
          (batch.map (canonicalCall match_collections (h0.get r0).others)) := by
  constructor
  · obtain ⟨-, -, h3⟩ := group_loop_spec match_collections N_cores batch_size
      sched (groupByStackZ df_pairs) (h0, r0, [])
    show ((groupByStackZ df_pairs).foldl _ (h0, r0, [])).2.2 = _
    rw [h3, List.nil_append, List.flatMap_assoc]
    refine flatMap_congr_mem (fun g hg => ?_)
    refine flatMap_congr_mem (fun batch hb => ?_)
    have hmaps : batch.map (fun r =>
        ({ stack := g.1.1, collection := match_collections g.1.1,
           tile_pairs := [(r.pId, r.qId)],
           sift_options := ⟨r.pRelativePosition,
             (h0.get r0).others⟩ } : PMCall α))
        = batch.map (canonicalCall match_collections (h0.get r0).others) := by
      refine List.map_congr_left (fun r hr => ?_)
      have hk := groupByStackZ_mem_key df_pairs g hg r
        (mem_of_mem_batchesOf hb r hr)
      unfold canonicalCall
      have hstack : r.stack = g.1.1 := by
        rw [show r.stack = (keyOf r).1 from rfl, hk]
      rw [hstack]
    rw [hmaps]
  · intro batch _
    exact hsched _

/-! ## Theorems: batching equals fixed-size chunking (claim C4) -/

theorem groupRunsAux_span {β : Type} :
    ∀ (t rest : List (Nat × β)) (k : Nat) (run : List (Nat × β)),
      (∀ y ∈ t, y.1 = k) →
      (∀ z, rest.head? = some z → z.1 ≠ k) →
      groupRunsAux k run (t ++ rest) = (run.reverse ++ t) :: groupRuns rest := by
  intro t
  induction t with
  | nil =>
    intro rest k run _ hrest
    cases rest with
    | nil => simp [groupRunsAux, groupRuns]
    | cons z zs =>
      have hne : z.1 ≠ k := hrest z rfl
      show groupRunsAux k run (z :: zs) = (run.reverse ++ []) :: groupRuns (z :: zs)
      simp only [groupRunsAux, List.append_nil]
      rw [if_neg (by simpa using hne)]
      rfl
  | cons a t2 ih =>
    intro rest k run ht hrest
    have ha : a.1 = k := ht a (by simp)
    show groupRunsAux k run (a :: (t2 ++ rest)) = _
    simp only [groupRunsAux]
    rw [if_pos (by simpa using ha),
      ih rest k (a :: run) (fun y hy => ht y (by simp [hy])) hrest]
    simp

theorem groupRuns_span {β : Type} (x : Nat × β) (t rest : List (Nat × β))
    (ht : ∀ y ∈ t, y.1 = x.1)
    (hrest : ∀ z, rest.head? = some z → z.1 ≠ x.1) :
    groupRuns (x :: (t ++ rest)) = (x :: t) :: groupRuns rest := by
  show groupRunsAux x.1 [x] (t ++ rest) = _
  rw [groupRunsAux_span t rest x.1 [x] ht hrest]
  rfl

theorem range_drop (m b : Nat) :
    (List.range m).drop b = (List.range (m - b)).map (fun j => b + j) := by
  by_cases h : m ≤ b
  · rw [List.drop_eq_nil_of_le (by simpa using h), Nat.sub_eq_zero_of_le h]
    rfl
  · conv_lhs => rw [show m = b + (m - b) by omega, List.range_add]
    have := List.drop_left (List.range b)
      ((List.range (m - b)).map (fun x => b + x))
    rwa [List.length_range] at this

theorem groupRunsAux_shift {β : Type} (c : Nat) :
    ∀ (l : List (Nat × β)) (k : Nat) (run : List (Nat × β)),
      (groupRunsAux (k + c) (run.map (fun p => (p.1 + c, p.2)))
          (l.map (fun p => (p.1 + c, p.2)))).map (List.map (fun y => y.2))
        = (groupRunsAux k run l).map (List.map (fun y => y.2)) := by
  intro l
  induction l with
  | nil =>
    intro k run
    simp only [List.map_nil, groupRunsAux, List.isEmpty_nil]
    simp [← List.map_reverse, List.map_map, Function.comp_def]
  | cons y ys ih =>
    intro k run
    have hcond : (y.1 + c == k + c) = (y.1 == k) := by
      by_cases h2 : y.1 = k
      · simp [h2]
      · have h3 : y.1 + c ≠ k + c := by omega
        simp [beq_iff_eq, h2, h3]
    simp only [List.map_cons, groupRunsAux, hcond]
    by_cases hk : y.1 == k
    · rw [if_pos hk, if_pos hk]
      have := ih k (y :: run)
      simpa using this
    · rw [if_neg hk, if_neg hk]
      simp only [List.map_cons]
      refine congrArg₂ _ ?_ ?_
      · simp [← List.map_reverse, List.map_map, Function.comp_def]
      · have := ih y.1 [y]
        simpa using this

theorem groupRuns_shift {β : Type} (c : Nat) (l : List (Nat × β)) :
    (groupRuns (l.map (fun p => (p.1 + c, p.2)))).map (List.map (fun y => y.2))
      = (groupRuns l).map (List.map (fun y => y.2)) := by
  cases l with
  | nil => rfl
  | cons x xs =>
    show (groupRunsAux (x.1 + c) [(x.1 + c, x.2)] (xs.map _)).map _
        = (groupRunsAux x.1 [x] xs).map _
    have := groupRunsAux_shift c xs x.1 [x]
    simpa using this

theorem chunksSpec_nil {β : Type} (b : Nat) :
    chunksSpec b ([] : List β) = [] := by
  rw [chunksSpec]

theorem chunksSpec_cons {β : Type} (b : Nat) (x : β) (xs : List β) :
    chunksSpec b (x :: xs)
      = (x :: xs.take (b - 1)) :: chunksSpec b (xs.drop (b - 1)) := by
  rw [chunksSpec]

/-- The grouping keys `i / b` for positions `0..m-1`: `min b m` zeros
followed by the keys for the remaining positions, all shifted up by 1. -/
theorem keys_decomp (b : Nat) (hb : 0 < b) (m : Nat) :
    (List.range m).map (fun i => i / b)
      = List.replicate (min b m) 0
        ++ ((List.range (m - b)).map (fun j => j / b)).map (fun s => s + 1) := by
  conv_lhs => rw [← List.take_append_drop b (List.range m)]
  rw [List.map_append, List.take_range, range_drop, List.map_map, List.map_map]
  refine congrArg₂ _ ?_ ?_
  · refine List.eq_replicate_iff.mpr ⟨by simp, fun v hv => ?_⟩
    simp only [List.mem_map, List.mem_range] at hv
    obtain ⟨i, hi, rfl⟩ := hv
    exact Nat.div_eq_of_lt (lt_of_lt_of_le hi (min_le_left b m))
  · refine List.map_congr_left (fun j _ => ?_)
    show (b + j) / b = j / b + 1
    rw [Nat.add_comm, Nat.add_div_right j hb]

theorem batchesOf_eq_chunksSpec_aux {β : Type} (b : Nat) (hb : 0 < b) :
    ∀ (n : Nat) (rows : List β), rows.length ≤ n →
      batchesOf b rows = chunksSpec b rows := by
  intro n
  induction n with
  | zero =>
    intro rows hlen
    obtain rfl := List.length_eq_zero.mp (Nat.le_zero.mp hlen)
    rw [chunksSpec_nil]
    rfl
  | succ n ih =>
    intro rows hlen
    cases rows with
    | nil => rw [chunksSpec_nil]; rfl
    | cons x xs =>
      have hr1 : (x :: xs).take b = x :: xs.take (b - 1) := by
        cases b with
        | zero => omega
        | succ n2 => simp
      have hr2 : (x :: xs).drop b = xs.drop (b - 1) := by
        cases b with
        | zero => omega
        | succ n2 => simp
      have hzip :
          ((List.range (x :: xs).length).map (fun i => i / b)).zip (x :: xs)
            = (0, x) :: ((xs.take (b - 1)).map (Prod.mk 0)
                ++ ((((List.range (xs.length + 1 - b)).map
                      (fun j => j / b)).zip (xs.drop (b - 1))).map
                    (fun p => (p.1 + 1, p.2)))) := by
        conv_lhs =>
          rw [show (x :: xs).length = xs.length + 1 from rfl,
            keys_decomp b hb (xs.length + 1),
            show (x :: xs) = (x :: xs).take b ++ (x :: xs).drop b from
              (List.take_append_drop b _).symm]
        rw [List.zip_append (by simp [List.length_take]), hr1, hr2]
        rw [show List.replicate (min b (xs.length + 1)) (0 : Nat)
            = List.replicate (x :: xs.take (b - 1)).length 0 from by
          refine congrArg₂ _ ?_ rfl
          simp only [List.length_cons, List.length_take]
          omega]
        rw [zip_replicate_key, List.zip_map_left, List.map_cons]
        simp only [List.cons_append]
        refine congrArg₂ _ rfl (congrArg₂ _ rfl ?_)
        refine List.map_congr_left (fun p _ => ?_)
        rfl
      have ht : ∀ y ∈ (xs.take (b - 1)).map (Prod.mk (0 : Nat)),
          y.1 = ((0 : Nat), x).1 := by
        intro y hy
        obtain ⟨a, -, rfl⟩ := List.mem_map.mp hy
        rfl
      have hrest : ∀ z, ((((List.range (xs.length + 1 - b)).map
            (fun j => j / b)).zip (xs.drop (b - 1))).map
          (fun p => (p.1 + 1, p.2))).head? = some z →
          z.1 ≠ ((0 : Nat), x).1 := by
        intro z hz
        have hzmem := List.mem_of_mem_head? hz
        obtain ⟨p, -, rfl⟩ := List.mem_map.mp hzmem
        exact Nat.succ_ne_zero p.1
      have hdroplen : (xs.drop (b - 1)).length = xs.length + 1 - b := by
        rw [List.length_drop]
        omega
      calc batchesOf b (x :: xs)
          = (groupRuns (((List.range (x :: xs).length).map
              (fun i => i / b)).zip (x :: xs))).map
              (fun run => run.map (fun y => y.2)) := rfl
        _ = (((0, x) :: (xs.take (b - 1)).map (Prod.mk 0))
              :: groupRuns ((((List.range (xs.length + 1 - b)).map
                    (fun j => j / b)).zip (xs.drop (b - 1))).map
                  (fun p => (p.1 + 1, p.2)))).map
              (fun run => run.map (fun y => y.2)) := by
            rw [hzip, groupRuns_span ((0 : Nat), x) _ _ ht hrest]
        _ = (x :: xs.take (b - 1))
              :: ((groupRuns (((List.range (xs.length + 1 - b)).map
                    (fun j => j / b)).zip (xs.drop (b - 1)))).map
                  (fun run => run.map (fun y => y.2))) := by
            rw [List.map_cons]
            refine congrArg₂ _ ?_ (groupRuns_shift 1 _)
            simp [List.map_map, Function.comp_def]
        _ = (x :: xs.take (b - 1)) :: batchesOf b (xs.drop (b - 1)) := by
            refine congrArg₂ _ rfl ?_
            rw [← hdroplen]
            rfl
        _ = (x :: xs.take (b - 1)) :: chunksSpec b (xs.drop (b - 1)) := by
            refine congrArg₂ _ rfl (ih _ ?_)
            rw [List.length_drop]
            have := hlen
            simp only [List.length_cons] at this
            omega
        _ = chunksSpec b (x :: xs) := (chunksSpec_cons b x xs).symm

/-- With a positive batch size, the dispatcher's grouping-key batching is
exactly chunking into consecutive `batch_size`-sized slices. -/
theorem batchesOf_eq_chunksSpec {β : Type} (b : Nat) (hb : 0 < b)
    (rows : List β) : batchesOf b rows = chunksSpec b rows :=
  batchesOf_eq_chunksSpec_aux b hb rows.length rows (Nat.le_refl _)

theorem chunksSpec_sizes_aux {β : Type} (b : Nat) (hb : 0 < b) :
    ∀ (n : Nat) (l : List β), l.length ≤ n →
      ∀ c ∈ chunksSpec b l, c ≠ [] ∧ c.length ≤ b := by
  intro n
  induction n with
  | zero =>
    intro l hlen c hc
    obtain rfl := List.length_eq_zero.mp (Nat.le_zero.mp hlen)
    rw [chunksSpec_nil] at hc
    cases hc
  | succ n ih =>
    intro l hlen c hc
    cases l with
    | nil =>
      rw [chunksSpec_nil] at hc
      cases hc
    | cons x xs =>
      rw [chunksSpec_cons] at hc
      rcases List.mem_cons.mp hc with rfl | hc2
      · refine ⟨by simp, ?_⟩
        simp only [List.length_cons, List.length_take]
        omega
      · refine ih (xs.drop (b - 1)) ?_ c hc2
        simp only [List.length_cons] at hlen
        rw [List.length_drop]
        omega

theorem chunksSpec_ne_nil {β : Type} (b : Nat) (x : β) (xs : List β) :
    chunksSpec b (x :: xs) ≠ [] := by
  rw [chunksSpec_cons]
  simp

theorem chunksSpec_dropLast_aux {β : Type} (b : Nat) (hb : 0 < b) :
    ∀ (n : Nat) (l : List β), l.length ≤ n →
      ∀ c ∈ (chunksSpec b l).dropLast, c.length = b := by
  intro n
  induction n with
  | zero =>
    intro l hlen c hc
    obtain rfl := List.length_eq_zero.mp (Nat.le_zero.mp hlen)
    rw [chunksSpec_nil] at hc
    cases hc
  | succ n ih =>
    intro l hlen c hc
    cases l with
    | nil =>
      rw [chunksSpec_nil] at hc
      cases hc
    | cons x xs =>
      rw [chunksSpec_cons] at hc
      cases hrest : xs.drop (b - 1) with
      | nil =>
        rw [hrest, chunksSpec_nil] at hc
        cases hc
      | cons y ys =>
        rw [List.dropLast_cons_of_ne_nil (hrest ▸ chunksSpec_ne_nil b y ys)] at hc
        rcases List.mem_cons.mp hc with rfl | hc2
        · have hxs : b - 1 ≤ xs.length := by
            by_contra hcon
            have : xs.drop (b - 1) = [] :=
              List.drop_eq_nil_of_le (by omega)
            rw [this] at hrest
            cases hrest
          simp only [List.length_cons, List.length_take]
          omega
        · refine ih (xs.drop (b - 1)) ?_ c hc2
          simp only [List.length_cons] at hlen
          rw [List.length_drop]
          omega

theorem chunksSpec_map_length_congr {β γ : Type} (b : Nat) :
    ∀ (n : Nat) (l1 : List β) (l2 : List γ), l1.length ≤ n →
      l1.length = l2.length →
      (chunksSpec b l1).map List.length = (chunksSpec b l2).map List.length := by
  intro n
  induction n with
  | zero =>
    intro l1 l2 hlen heq
    obtain rfl := List.length_eq_zero.mp (Nat.le_zero.mp hlen)
    obtain rfl := List.length_eq_zero.mp heq.symm
    rw [chunksSpec_nil, chunksSpec_nil]
    rfl
  | succ n ih =>
    intro l1 l2 hlen heq
    cases l1 with
    | nil =>
      obtain rfl := List.length_eq_zero.mp heq.symm
      rw [chunksSpec_nil, chunksSpec_nil]
      rfl
    | cons x xs =>
      cases l2 with
      | nil => cases heq
      | cons y ys =>
        rw [chunksSpec_cons, chunksSpec_cons, List.map_cons, List.map_cons]
        simp only [List.length_cons] at heq
        have heq2 : xs.length = ys.length := by omega
        refine congrArg₂ _ ?_ ?_
        · simp only [List.length_cons, List.length_take]
          omega
        · refine ih (xs.drop (b - 1)) (ys.drop (b - 1)) ?_ ?_
          · simp only [List.length_cons] at hlen
            rw [List.length_drop]
            omega
          · rw [List.length_drop, List.length_drop, heq2]

/-- C4: for every `(stack, z)` group, the dispatcher's batching is an
in-order partition into consecutive batches: the batches concatenate
back to the group's rows, every batch but the last has exactly
`batch_size` rows, and every batch is nonempty with at most `batch_size`
rows; in particular any group of 10 rows with `batch_size = 4` is split
into batches of sizes `[4, 4, 2]`. -/
theorem dispatcher_batch_partition (batch_size : Nat) (hbs : 0 < batch_size)
    (df_pairs : List TilePairRow) :
    (∀ g ∈ groupByStackZ df_pairs,
        (batchesOf batch_size g.2).flatten = g.2
        ∧ (∀ c ∈ (batchesOf batch_size g.2).dropLast, c.length = batch_size)
        ∧ ∀ c ∈ batchesOf batch_size g.2, c ≠ [] ∧ c.length ≤ batch_size)
    ∧ ∀ rows : List TilePairRow, rows.length = 10 →
        (batchesOf 4 rows).map List.length = [4, 4, 2] := by
  constructor
  · intro g _
    refine ⟨batchesOf_flatten _ _, ?_, ?_⟩
    · rw [batchesOf_eq_chunksSpec batch_size hbs]
      exact chunksSpec_dropLast_aux batch_size hbs g.2.length g.2 (Nat.le_refl _)
    · rw [batchesOf_eq_chunksSpec batch_size hbs]
      exact chunksSpec_sizes_aux batch_size hbs g.2.length g.2 (Nat.le_refl _)
  · intro rows h10
    rw [batchesOf_eq_chunksSpec 4 (by omega),
      chunksSpec_map_length_congr 4 rows.length rows (List.range 10)
        (Nat.le_refl _) (by simp [h10]),
      ← batchesOf_eq_chunksSpec 4 (by omega) (List.range 10)]
    decide

/-! ## Witnesses for the dispatcher claims -/

/-- Witness for C3: concrete five-row run under the identity scheduler. -/
theorem dispatcher_one_call_per_row_witness :
    (callEvents (generate_point_matches dfFiveRows collectionsOf heapOne 0
        2 2 (fun l => l)).2.2).Perm
      (dfFiveRows.map (canonicalCall collectionsOf (heapOne.get 0).others)) :=
  dispatcher_one_call_per_row dfFiveRows collectionsOf heapOne 0 2 2
    (fun l => l) (fun l => List.Perm.refl l)

/-- Witness for C2: the first call of the concrete run keeps the
template's remaining fields and carries one row's pair and position. -/
theorem dispatcher_clone_only_changes_position_witness :
    ((callEvents (generate_point_matches dfFiveRows collectionsOf heapOne 0
        2 2 (fun l => l)).2.2).getD 0 default).sift_options.others
      = (heapOne.get 0).others
    ∧ ∃ r ∈ dfFiveRows,
        ((callEvents (generate_point_matches dfFiveRows collectionsOf heapOne
            0 2 2 (fun l => l)).2.2).getD 0 default).tile_pairs
          = [(r.pId, r.qId)]
        ∧ ((callEvents (generate_point_matches dfFiveRows collectionsOf
            heapOne 0 2 2 (fun l => l)).2.2).getD 0
            default).sift_options.firstCanvasPosition
          = r.pRelativePosition :=
  dispatcher_clone_only_changes_position dfFiveRows collectionsOf heapOne 0
    2 2 (fun l => l) (fun l => List.Perm.refl l) _ (by
      have hlen : 0 < (callEvents (generate_point_matches dfFiveRows
          collectionsOf heapOne 0 2 2 (fun l => l)).2.2).length := by decide
      rw [List.getD_eq_getElem _ default hlen]
      exact List.getElem_mem hlen)

/-- Witness for C8: the concrete run's trace is exactly the sequence of
per-batch `create … close` blocks. -/
theorem dispatcher_pools_sequential_witness :
    (generate_point_matches dfFiveRows collectionsOf heapOne 0 2 2
        (fun l => l)).2.2
      = ((groupByStackZ dfFiveRows).flatMap (fun g =>
          batchesOf 2 g.2)).flatMap (fun batch =>
            PoolEvent.create 2
              :: (((fun l => l) (batch.map (canonicalCall collectionsOf
                    (heapOne.get 0).others))).map PoolEvent.call
                  ++ [PoolEvent.close])) :=
  (dispatcher_pools_sequential dfFiveRows collectionsOf heapOne 0 2 2
    (fun l => l) (fun l => List.Perm.refl l)).1

/-- Witness for C4: ten rows with batch size 4 split as `[4, 4, 2]`. -/
theorem dispatcher_batch_partition_witness :
    (batchesOf 4 (List.replicate 10 (default : TilePairRow))).map List.length
      = [4, 4, 2] :=
  (dispatcher_batch_partition 4 (by decide) []).2
    (List.replicate 10 default) (by simp)

/-- Witness for C9: after the concrete run the caller's template cell is
untouched. -/
theorem dispatcher_never_mutates_template_witness :
    (generate_point_matches dfFiveRows collectionsOf heapOne 0 2 2
        (fun l => l)).1.cells.take heapOne.cells.length = heapOne.cells :=
  (dispatcher_never_mutates_template dfFiveRows collectionsOf heapOne 0 2 2
    (fun l => l)).1

end ICat
